import Mathlib

/-!
Verification development for the toast noise-synthesis kernel
(`src/toast/future_ops/sim_tod_noise.py`).

The pure-python path of `sim_noise_timestream` and the per-observation
orchestration of `SimNoise._exec` are embedded shallowly:

* machine floats are modelled as `ℚ` where the code only compares and
  selects (precondition checks, psd shift, weights) and as `ℝ` where it
  computes transcendentally (logs, powers, FFT);
* every fallible step returns `Except NoiseErr`;
* external collaborators that are not part of this repository's sources
  (the Random123 keystream binding `toast.rng`, `scipy.interpolate.interp1d`,
  `numpy.fft.irfft`, `toast.utils.rate_from_times`) are modelled from the
  specification's contracts, as flagged in their doc comments.
-/

/-- Error outcomes of the embedded code.  The four `invalid*` constructors
are the `RuntimeError`s raised by the §4.2 precondition checks (the spec's
`InvalidInput`); `aminEmpty*` model `numpy.amin` raising on an empty
selection; `missingKey` and `notImplemented` are the operator-level
failures of `SimNoise._exec`. -/
inductive NoiseErr where
  | interpFreqLen
  | invalidFreqNeg
  | invalidPsdNeg
  | invalidFreqLow
  | invalidNyquist
  | aminEmptyFreq
  | aminEmptyPsd
  | aminEmptyPosPsd
  | missingKey
  | notImplemented
deriving DecidableEq

/-- The `InvalidInput` class of errors: the four §4.2 precondition
`RuntimeError`s of `sim_noise_timestream`. -/
def NoiseErr.isInvalid : NoiseErr → Bool
  | .invalidFreqNeg => true
  | .invalidPsdNeg => true
  | .invalidFreqLow => true
  | .invalidNyquist => true
  | _ => false

/-- The loop `fftlen = 2; while fftlen <= n: fftlen *= 2` from
`sim_noise_timestream` (lines 81-83).  `fuel` bounds the number of loop
iterations so the recursion is structural; `n + 1` passes always suffice
because the value doubles from 2 on every pass. -/
def fftLoop : ℕ → ℕ → ℕ → ℕ
  | 0, _, fftlen => fftlen
  | fuel + 1, n, fftlen => if fftlen ≤ n then fftLoop fuel n (2 * fftlen) else fftlen

/-- Transform length chosen by `sim_noise_timestream` for a request with
the given oversample factor and sample count. -/
def fftlenOf (oversample samples : ℕ) : ℕ :=
  fftLoop (oversample * samples + 1) (oversample * samples) 2

/-- `npsd = fftlen // 2 + 1` (line 84). -/
def npsdOf (fftlen : ℕ) : ℕ := fftlen / 2 + 1

/-- Modelled from the spec: `numpy.fft.rfftfreq(fftlen, 1 / rate)` (external
numpy), the FFT bin frequencies `f_i = i * rate / fftlen` for
`i = 0 .. fftlen/2`. -/
def rfftfreq (n : ℕ) (rate : ℚ) : List ℚ :=
  (List.range (n / 2 + 1)).map (fun (i : ℕ) => (i : ℚ) * rate / (n : ℚ))

/-- The decision prefix of the PSD interpolation (lines 87-121): the
interpolated-frequency length sanity check, the four precondition checks,
and the computation of `psdshift = 0.01 * amin(psd[psd > 0])`.  All of
these act on exact comparisons, so they are modelled over `ℚ`; on success
the resulting shift is returned for the numeric core. -/
def psdInterpE (freq psd : List ℚ) (rate : ℚ) (fftlen : ℕ) : Except NoiseErr ℚ :=
  if (rfftfreq fftlen rate).length ≠ npsdOf fftlen then .error .interpFreqLen
  else if freq = [] then .error .aminEmptyFreq
  else if freq.min?.getD 0 < 0 then .error .invalidFreqNeg
  else if psd = [] then .error .aminEmptyPsd
  else if psd.min?.getD 0 < 0 then .error .invalidPsdNeg
  else if rate / (fftlen : ℚ) < freq.headD 0 then .error .invalidFreqLow
  else if 1 / 100 < |(freq.getLastD 0 - rate / 2) / (rate / 2)| then .error .invalidNyquist
  else if psd.filter (fun p => 0 < p) = [] then .error .aminEmptyPosPsd
  else .ok (1 / 100 * (psd.filter (fun p => 0 < p)).min?.getD 0)

/-- One of the four §4.2 preconditions is violated: a negative frequency,
a negative PSD value, first frequency above `rate / fftlen`, or last
frequency off Nyquist by more than 1 percent. -/
def Violation (freq psd : List ℚ) (rate : ℚ) (fftlen : ℕ) : Prop :=
  (∃ f ∈ freq, f < 0) ∨ (∃ p ∈ psd, p < 0) ∨
    rate / (fftlen : ℚ) < freq.headD 0 ∨
    1 / 100 < |(freq.getLastD 0 - rate / 2) / (rate / 2)|

instance (freq psd : List ℚ) (rate : ℚ) (fftlen : ℕ) :
    Decidable (Violation freq psd rate fftlen) := by
  unfold Violation; infer_instance

/-- `key1 = realization * 4294967296 + telescope * 65536 + component`
(line 140). -/
def key1Of (realization telescope component : ℕ) : ℕ :=
  realization * 4294967296 + telescope * 65536 + component

/-- `key2 = obsindx * 4294967296 + detindx` (line 141). -/
def key2Of (obsindx detindx : ℕ) : ℕ := obsindx * 4294967296 + detindx

/-- `counter2 = firstsamp * oversample` (line 143). -/
def counter2Of (firstsamp oversample : ℕ) : ℕ := firstsamp * oversample

/-- A synthesis request: the arguments of `sim_noise_timestream`. -/
structure Request where
  realization : ℕ
  telescope : ℕ
  component : ℕ
  obsindx : ℕ
  detindx : ℕ
  rate : ℚ
  firstsamp : ℕ
  samples : ℕ
  oversample : ℕ
  freq : List ℚ
  psd : List ℚ

/-- Transform length for a request. -/
def Request.fftlen (req : Request) : ℕ := fftlenOf req.oversample req.samples

/-- Spectrum length for a request. -/
def Request.npsd (req : Request) : ℕ := npsdOf req.fftlen

/-- The random draws consumed by `sim_noise_timestream`
(lines 145-147): `rng.random(fftlen, sampler="gaussian", key=(key1, key2),
counter=(counter1, counter2))`.  The generator `G` is modelled from the
spec: the §4.1 keystream contract maps `(key_hi, key_lo, counter_hi,
counter_lo)` to that counter's standard Gaussian value, the counter
advancing by one per scalar drawn (the binding `toast.rng` is external to
these sources). -/
def rngdataOf (G : ℕ → ℕ → ℕ → ℕ → ℝ) (req : Request) : List ℝ :=
  (List.range req.fftlen).map (fun i =>
    G (key1Of req.realization req.telescope req.component)
      (key2Of req.obsindx req.detindx) 0
      (counter2Of req.firstsamp req.oversample + i))

/-- The Hermitian-half spectrum packing (lines 149-156): `fdata[0]` and
`fdata[npsd-1]` are the purely real draws `rngdata[0]` and
`rngdata[npsd-1]`; interior `fdata[i] = rngdata[i] + 1j *
rngdata[len(rngdata) - i]`, which is exactly the reverse slice
`rngdata[-1 : npsd-1 : -1]` feeding `fdata[1:-1]`. -/
def mkFdata (rngdata : List ℝ) (npsd : ℕ) : List ℂ :=
  (List.range npsd).map (fun k =>
    if k = 0 then ⟨rngdata.getD 0 0, 0⟩
    else if k = npsd - 1 then ⟨rngdata.getD (npsd - 1) 0, 0⟩
    else ⟨rngdata.getD k 0, rngdata.getD (rngdata.length - k) 0⟩)

theorem rfftfreq_length (n : ℕ) (rate : ℚ) : (rfftfreq n rate).length = npsdOf n := by
  rw [rfftfreq, List.length_map, List.length_range, npsdOf]

theorem fftLoop_pow (fuel : ℕ) : ∀ n j : ℕ, n < 2 ^ (j + fuel) →
    ∃ k, j ≤ k ∧ fftLoop fuel n (2 ^ j) = 2 ^ k ∧ n < 2 ^ k ∧
      ∀ i, j ≤ i → n < 2 ^ i → k ≤ i := by
  induction fuel with
  | zero =>
    intro n j h
    exact ⟨j, le_refl j, rfl, by simpa using h, fun i hji _ => hji⟩
  | succ fuel ih =>
    intro n j h
    rw [fftLoop]
    by_cases hle : 2 ^ j ≤ n
    · rw [if_pos hle]
      have h2 : n < 2 ^ (j + 1 + fuel) := by
        have : j + fuel + 1 = j + 1 + fuel := by omega
        rw [← this]; exact h
      obtain ⟨k, hk1, hk2, hk3, hk4⟩ := ih n (j + 1) h2
      have hpow : 2 * 2 ^ j = 2 ^ (j + 1) := by ring
      refine ⟨k, by omega, by rw [hpow]; exact hk2, hk3, ?_⟩
      intro i hji hni
      have : j + 1 ≤ i := by
        rcases Nat.eq_or_lt_of_le hji with heq | hlt
        · exfalso; rw [← heq] at hni; omega
        · omega
      exact hk4 i this hni
    · rw [if_neg hle]
      exact ⟨j, le_refl j, rfl, by omega, fun i hji _ => hji⟩

theorem fftlenOf_pow (oversample samples : ℕ) :
    ∃ k, 1 ≤ k ∧ fftlenOf oversample samples = 2 ^ k ∧
      oversample * samples < 2 ^ k ∧
      ∀ i, 1 ≤ i → oversample * samples < 2 ^ i → k ≤ i := by
  have h : oversample * samples < 2 ^ (1 + (oversample * samples + 1)) := by
    calc oversample * samples < 2 ^ (oversample * samples) := Nat.lt_two_pow _
    _ ≤ 2 ^ (1 + (oversample * samples + 1)) := Nat.pow_le_pow_right (by omega) (by omega)
  have := fftLoop_pow (oversample * samples + 1) (oversample * samples) 1 h
  simpa [fftlenOf] using this

theorem fftlenOf_gt (oversample samples : ℕ) :
    oversample * samples < fftlenOf oversample samples := by
  obtain ⟨k, _, hk2, hk3, _⟩ := fftlenOf_pow oversample samples
  rw [hk2]; exact hk3

theorem fftlenOf_even (oversample samples : ℕ) :
    2 * (fftlenOf oversample samples / 2) = fftlenOf oversample samples := by
  obtain ⟨k, hk1, hk2, _, _⟩ := fftlenOf_pow oversample samples
  rw [hk2]
  obtain ⟨m, rfl⟩ := Nat.exists_eq_add_of_le hk1
  rw [pow_add, pow_one]
  omega

/-- C1 counterexample: for `sample_count = 1024`, `oversample_factor = 2`
the code produces `fft_len = 4096` and `npsd = 2049`, not the claimed
`fft_len = 2048` and `npsd = 1025`: the loop `while fftlen <= n` runs past
`n = 2048` because the comparison is inclusive. -/
theorem c1_counterexample :
    fftlenOf 2 1024 = 4096 ∧ npsdOf (fftlenOf 2 1024) = 2049 ∧
      ¬(fftlenOf 2 1024 = 2048 ∧ npsdOf (fftlenOf 2 1024) = 1025) := by
  decide

/-- C1 (amended): the transform length is the smallest power of two
STRICTLY GREATER than `oversample_factor * sample_count` (for any
nonempty request, i.e. `oversample * samples ≥ 1`). -/
theorem c1_fftlen_least_pow_gt (oversample samples : ℕ)
    (h : 1 ≤ oversample * samples) :
    ∃ k, fftlenOf oversample samples = 2 ^ k ∧
      oversample * samples < 2 ^ k ∧
      ∀ i, oversample * samples < 2 ^ i → 2 ^ k ≤ 2 ^ i := by
  obtain ⟨k, hk1, hk2, hk3, hk4⟩ := fftlenOf_pow oversample samples
  refine ⟨k, hk2, hk3, ?_⟩
  intro i hi
  have h1i : 1 ≤ i := by
    cases i with
    | zero => rw [pow_zero] at hi; omega
    | succ m => omega
  exact Nat.pow_le_pow_right (by omega) (hk4 i h1i hi)

/-- Witness for `c1_fftlen_least_pow_gt` at the spec's scenario input. -/
theorem c1_witness :
    1 ≤ 2 * 1024 ∧
      (∃ k, fftlenOf 2 1024 = 2 ^ k ∧ 2 * 1024 < 2 ^ k ∧
        ∀ i, 2 * 1024 < 2 ^ i → 2 ^ k ≤ 2 ^ i) :=
  ⟨by omega, c1_fftlen_least_pow_gt 2 1024 (by omega)⟩

/-- Modelled from the spec: `scipy.interpolate.interp1d(xs, ys,
kind="linear", fill_value="extrapolate")` (external scipy), per §4.2:
piecewise-linear interpolation through the given points with linear
extrapolation from the first (resp. last) segment beyond the input range.
The points come from the noise-model frequency table, which the spec's
data-model invariant makes sorted and strictly increasing. -/
noncomputable def interp1d : List (ℝ × ℝ) → ℝ → ℝ
  | [], _ => 0
  | [(_, y0)], _ => y0
  | (x0, y0) :: (x1, y1) :: rest, x =>
    if x ≤ x1 then y0 + (y1 - y0) * (x - x0) / (x1 - x0)
    else interp1d ((x1, y1) :: rest) x

/-- The numeric core of the PSD interpolation (lines 123-134): base-10
logs of the shifted axes, linear log-log interpolation onto the FFT bin
frequencies, un-log and un-shift, and forcing the DC bin to zero. -/
noncomputable def interpCore (freq psd : List ℚ) (rate : ℚ) (fftlen : ℕ) (psdshift : ℚ) :
    List ℝ :=
  let freqshift : ℚ := rate / (fftlen : ℚ)
  let logfreq := freq.map (fun (f : ℚ) => Real.logb 10 ((f : ℝ) + (freqshift : ℝ)))
  let logpsd := psd.map (fun (p : ℚ) => Real.logb 10 ((p : ℝ) + (psdshift : ℝ)))
  let pts := logfreq.zip logpsd
  let loginterpPsd := (rfftfreq fftlen rate).map
    (fun (f : ℚ) => interp1d pts (Real.logb 10 ((f : ℝ) + (freqshift : ℝ))))
  let interpPsd := loginterpPsd.map (fun (y : ℝ) => (10 : ℝ) ^ y - (psdshift : ℝ))
  interpPsd.set 0 0

/-- Hermitian extension of a half spectrum of length `npsd` to a full
spectrum of length `n = 2 * (npsd - 1)`. -/
noncomputable def hermExt (fd : List ℂ) (n k : ℕ) : ℂ :=
  if k < fd.length then fd.getD k 0 else (starRingEnd ℂ) (fd.getD (n - k) 0)

/-- Modelled from the spec: `numpy.fft.irfft` (external numpy), the
inverse real transform of §4.3 step 7: the real sequence of length
`2 * (npsd - 1)` whose discrete Fourier transform is the Hermitian
extension of the input half spectrum. -/
noncomputable def irfft (fd : List ℂ) : List ℝ :=
  let n := 2 * (fd.length - 1)
  (List.range n).map (fun (t : ℕ) =>
    (1 / (n : ℝ)) * (∑ k ∈ Finset.range n,
      (hermExt fd n k *
        Complex.exp (2 * (Real.pi : ℂ) * Complex.I * (k : ℂ) * (t : ℂ) / (n : ℂ))).re))

/-- `scale = np.sqrt(interp_psd * norm)` with `norm = rate * float(npsd - 1)`
(lines 85 and 136). -/
noncomputable def scaleOf (req : Request) (psdshift : ℚ) : List ℝ :=
  (interpCore req.freq req.psd req.rate req.fftlen psdshift).map
    (fun p => Real.sqrt (p * ((req.rate : ℝ) * ((req.npsd - 1 : ℕ) : ℝ))))

/-- `fdata *= scale` (line 159). -/
noncomputable def fdataScaledOf (G : ℕ → ℕ → ℕ → ℕ → ℝ) (req : Request) (psdshift : ℚ) :
    List ℂ :=
  List.zipWith (fun (z : ℂ) (s : ℝ) => z * (s : ℂ)) (mkFdata (rngdataOf G req) req.npsd)
    (scaleOf req psdshift)

/-- `tdata = np.fft.irfft(fdata)` (line 162). -/
noncomputable def tdataOf (G : ℕ → ℕ → ℕ → ℕ → ℝ) (req : Request) (psdshift : ℚ) : List ℝ :=
  irfft (fdataScaledOf G req psdshift)

/-- `offset = (fftlen - samples) // 2` (line 165). -/
def offsetOf (fftlen samples : ℕ) : ℕ := (fftlen - samples) / 2

/-- The central window `tdata[offset : offset + samples]` (lines 165-169). -/
noncomputable def windowOf (G : ℕ → ℕ → ℕ → ℕ → ℝ) (req : Request) (psdshift : ℚ) : List ℝ :=
  ((tdataOf G req psdshift).drop (offsetOf req.fftlen req.samples)).take req.samples

/-- The returned timestream: the central window with its own mean
(`DC = np.mean(tdata[offset : offset + samples])`) subtracted
(lines 167-169). -/
noncomputable def synthCore (G : ℕ → ℕ → ℕ → ℕ → ℝ) (req : Request) (psdshift : ℚ) : List ℝ :=
  let w := windowOf G req psdshift
  w.map (fun x => x - w.sum / (w.length : ℝ))

/-- The pure-python path of `sim_noise_timestream` with `py=True`
(lines 80-169): on success it returns the triple of cropped timestream,
interpolated frequencies and interpolated PSD. -/
noncomputable def sim_noise_timestream (G : ℕ → ℕ → ℕ → ℕ → ℝ) (req : Request) :
    Except NoiseErr (List ℝ × List ℚ × List ℝ) :=
  (psdInterpE req.freq req.psd req.rate req.fftlen).map
    (fun s => (synthCore G req s, rfftfreq req.fftlen req.rate,
      interpCore req.freq req.psd req.rate req.fftlen s))

/-- Modelled from the spec: the compiled path (`tod_sim_noise_timestream`,
external to these sources) implements the same §4.3 contract as the
pure-python path and returns just the timestream. -/
noncomputable def synthesize (G : ℕ → ℕ → ℕ → ℕ → ℝ) (req : Request) :
    Except NoiseErr (List ℝ) :=
  (sim_noise_timestream G req).map (fun r => r.1)

theorem synthesize_ok (G : ℕ → ℕ → ℕ → ℕ → ℝ) (req : Request) (s : ℚ)
    (h : psdInterpE req.freq req.psd req.rate req.fftlen = .ok s) :
    synthesize G req = .ok (synthCore G req s) := by
  rw [synthesize, sim_noise_timestream, h]
  rfl

theorem sim_noise_timestream_ok (G : ℕ → ℕ → ℕ → ℕ → ℝ) (req : Request) (s : ℚ)
    (h : psdInterpE req.freq req.psd req.rate req.fftlen = .ok s) :
    sim_noise_timestream G req =
      .ok (synthCore G req s, rfftfreq req.fftlen req.rate,
        interpCore req.freq req.psd req.rate req.fftlen s) := by
  rw [sim_noise_timestream, h]
  rfl

/-- C5: the keystream is keyed and started exactly as the spec states:
`key_hi = realization * 2^32 + telescope * 2^16 + component`,
`key_lo = obsindx * 2^32 + detindx`, `counter_hi = 0`,
`counter_lo = firstsamp * oversample` (advancing by one per draw). -/
theorem c5_key_counter_construction (G : ℕ → ℕ → ℕ → ℕ → ℝ) (req : Request) :
    rngdataOf G req = (List.range req.fftlen).map (fun i =>
      G (req.realization * 2 ^ 32 + req.telescope * 2 ^ 16 + req.component)
        (req.obsindx * 2 ^ 32 + req.detindx) 0
        (req.firstsamp * req.oversample + i)) := by
  rw [rngdataOf]
  norm_num [key1Of, key2Of, counter2Of]

/-- Concrete all-zero generator used by counterexamples and witnesses. -/
def gZero : ℕ → ℕ → ℕ → ℕ → ℝ := fun _ _ _ _ => 0

/-- A request with `samples = 2`, `oversample = 1`, so `fftlen = 4` and
`npsd = 3`. -/
def reqC2 : Request :=
  { realization := 0, telescope := 0, component := 0, obsindx := 0, detindx := 0,
    rate := 100, firstsamp := 0, samples := 2, oversample := 1,
    freq := [0, 50], psd := [1, 1] }

/-- C2 counterexample: the code requests `fftlen` Gaussian draws, not
`npsd`: for `samples = 2`, `oversample = 1` it draws `4` values while
`npsd = 3`. -/
theorem c2_counterexample : (rngdataOf gZero reqC2).length ≠ reqC2.npsd := by
  simp only [rngdataOf, List.length_map, List.length_range]
  decide

/-- C2 (amended): the synthesis consumes exactly `fftlen = 2 * (npsd - 1)`
draws; bin 0 and bin `npsd - 1` are the purely real draws at those
indices, and interior bin `i` has real part `draw[i]` and imaginary part
`draw[fftlen - i]`, i.e. the tail of the draw sequence in reverse order. -/
theorem c2_draw_count_and_packing :
    (∀ (G : ℕ → ℕ → ℕ → ℕ → ℝ) (req : Request),
      (rngdataOf G req).length = req.fftlen ∧ req.fftlen = 2 * (req.npsd - 1)) ∧
    (∀ (rngdata : List ℝ) (npsd : ℕ), 2 ≤ npsd → rngdata.length = 2 * (npsd - 1) →
      (mkFdata rngdata npsd).length = npsd ∧
      (mkFdata rngdata npsd).get? 0 = some ⟨rngdata.getD 0 0, 0⟩ ∧
      (mkFdata rngdata npsd).get? (npsd - 1) = some ⟨rngdata.getD (npsd - 1) 0, 0⟩ ∧
      ∀ i, 1 ≤ i → i ≤ npsd - 2 →
        (mkFdata rngdata npsd).get? i =
          some ⟨rngdata.getD i 0, rngdata.getD (2 * (npsd - 1) - i) 0⟩) := by
  constructor
  · intro G req
    constructor
    · rw [rngdataOf, List.length_map, List.length_range]
    · have := fftlenOf_even req.oversample req.samples
      simp only [Request.npsd, Request.fftlen, npsdOf] at *
      omega
  · intro rngdata npsd h2 hlen
    have hmk : ∀ i, i < npsd → (mkFdata rngdata npsd).get? i =
        some (if i = 0 then (⟨rngdata.getD 0 0, 0⟩ : ℂ)
          else if i = npsd - 1 then ⟨rngdata.getD (npsd - 1) 0, 0⟩
          else ⟨rngdata.getD i 0, rngdata.getD (rngdata.length - i) 0⟩) := by
      intro i hi
      rw [mkFdata, List.get?_map, List.get?_range hi]
      rfl
    refine ⟨?_, ?_, ?_, ?_⟩
    · rw [mkFdata, List.length_map, List.length_range]
    · rw [hmk 0 (by omega)]
      simp
    · rw [hmk (npsd - 1) (by omega)]
      have : npsd - 1 ≠ 0 := by omega
      simp [this]
    · intro i h1i hi2
      rw [hmk i (by omega)]
      have hne0 : i ≠ 0 := by omega
      have hnel : i ≠ npsd - 1 := by omega
      rw [if_neg hne0, if_neg hnel, hlen]

/-- Witness for `c2_draw_count_and_packing`: with four draws and
`npsd = 3`, interior bin 1 pairs `draw[1]` with `draw[4 - 1] = draw[3]`. -/
theorem c2_witness :
    (2 : ℕ) ≤ 3 ∧ ([1, 2, 3, 4] : List ℝ).length = 2 * (3 - 1) ∧
      (mkFdata [1, 2, 3, 4] 3).get? 1 =
        some ⟨([1, 2, 3, 4] : List ℝ).getD 1 0, ([1, 2, 3, 4] : List ℝ).getD (2 * (3 - 1) - 1) 0⟩ :=
  ⟨by omega, by simp,
    (c2_draw_count_and_packing.2 [1, 2, 3, 4] 3 (by omega) (by simp)).2.2.2 1
      (by omega) (by omega)⟩

/-- C3 counterexample: the identifier tuples `(0, 1, 0, 0, 0)` and
`(0, 0, 65536, 0, 0)` differ (in telescope and component) yet produce the
same key pair, because `component ≥ 2^16` overflows into the telescope
field. -/
theorem c3_counterexample :
    ((0, 1, 0, 0, 0) : ℕ × ℕ × ℕ × ℕ × ℕ) ≠ (0, 0, 65536, 0, 0) ∧
      key1Of 0 1 0 = key1Of 0 0 65536 ∧ key2Of 0 0 = key2Of 0 0 := by
  refine ⟨by decide, by decide, rfl⟩

/-- C3 (amended): with the identifiers inside their fields' ranges
(`telescope, component < 2^16`, `detindx < 2^32`), distinct tuples give
distinct key pairs, so the keystreams are disjoint. -/
theorem c3_keys_disjoint (r t c o d r' t' c' o' d' : ℕ)
    (ht : t < 65536) (hc : c < 65536) (hd : d < 4294967296)
    (ht' : t' < 65536) (hc' : c' < 65536) (hd' : d' < 4294967296)
    (hne : (r, t, c, o, d) ≠ (r', t', c', o', d')) :
    (key1Of r t c, key2Of o d) ≠ (key1Of r' t' c', key2Of o' d') := by
  intro hq
  rw [Prod.ext_iff] at hq
  obtain ⟨h1, h2⟩ := hq
  simp only [key1Of, key2Of] at h1 h2
  apply hne
  simp only [Prod.ext_iff]
  omega

/-- Witness for `c3_keys_disjoint` at concrete in-range identifiers. -/
theorem c3_witness :
    (1 : ℕ) < 65536 ∧ (2 : ℕ) < 65536 ∧ (4 : ℕ) < 4294967296 ∧
      ((0, 1, 2, 3, 4) : ℕ × ℕ × ℕ × ℕ × ℕ) ≠ (0, 1, 2, 3, 5) ∧
      (key1Of 0 1 2, key2Of 3 4) ≠ (key1Of 0 1 2, key2Of 3 5) :=
  ⟨by omega, by omega, by omega, by decide,
    c3_keys_disjoint 0 1 2 3 4 0 1 2 3 5 (by omega) (by omega) (by omega)
      (by omega) (by omega) (by omega) (by decide)⟩

instance : Std.Antisymm (fun (a b : ℚ) => a ≤ b) :=
  ⟨fun h h2 => le_antisymm h h2⟩

theorem qmin?_eq_some_iff {l : List ℚ} {a : ℚ} :
    l.min? = some a ↔ a ∈ l ∧ ∀ b ∈ l, a ≤ b :=
  List.min?_eq_some_iff (fun x => le_refl x) (fun x y => min_choice x y)
    (fun x y z => le_min_iff)

theorem qmin?_of_ne_nil {l : List ℚ} (h : l ≠ []) :
    l.min?.getD 0 ∈ l ∧ ∀ b ∈ l, l.min?.getD 0 ≤ b := by
  cases hm : l.min? with
  | none => exact absurd (List.min?_eq_none_iff.mp hm) h
  | some m =>
    have := qmin?_eq_some_iff.mp hm
    simpa using this

/-- C4 (amended): for nonempty `freq` and `psd`, the interpolation raises
`InvalidInput` iff one of the four §4.2 preconditions is violated; and if
all four preconditions hold AND at least one PSD value is strictly
positive, it does not raise. -/
theorem c4_invalid_iff (freq psd : List ℚ) (rate : ℚ) (fftlen : ℕ)
    (hf : freq ≠ []) (hp : psd ≠ []) :
    ((∃ e, psdInterpE freq psd rate fftlen = .error e ∧ e.isInvalid = true) ↔
      Violation freq psd rate fftlen) ∧
    (¬ Violation freq psd rate fftlen → (∃ p ∈ psd, 0 < p) →
      ∃ s, psdInterpE freq psd rate fftlen = .ok s) := by
  have h0 : ¬((rfftfreq fftlen rate).length ≠ npsdOf fftlen) := by
    rw [rfftfreq_length]
    exact fun h => h rfl
  obtain ⟨hfmem, hfle⟩ := qmin?_of_ne_nil hf
  obtain ⟨hpmem, hple⟩ := qmin?_of_ne_nil hp
  rw [psdInterpE, if_neg h0, if_neg hf, if_neg hp]
  constructor
  · constructor
    · rintro ⟨e, he, hinv⟩
      by_cases h3 : freq.min?.getD 0 < 0
      · exact Or.inl ⟨freq.min?.getD 0, hfmem, h3⟩
      · rw [if_neg h3] at he
        by_cases h5 : psd.min?.getD 0 < 0
        · exact Or.inr (Or.inl ⟨psd.min?.getD 0, hpmem, h5⟩)
        · rw [if_neg h5] at he
          by_cases h6 : rate / (fftlen : ℚ) < freq.headD 0
          · exact Or.inr (Or.inr (Or.inl h6))
          · rw [if_neg h6] at he
            by_cases h7 : 1 / 100 < |(freq.getLastD 0 - rate / 2) / (rate / 2)|
            · exact Or.inr (Or.inr (Or.inr h7))
            · rw [if_neg h7] at he
              by_cases h8 : psd.filter (fun p => 0 < p) = []
              · rw [if_pos h8] at he
                cases he
                simp [NoiseErr.isInvalid] at hinv
              · rw [if_neg h8] at he
                exact Except.noConfusion he
    · intro hv
      rcases hv with ⟨f, hfm, hfneg⟩ | ⟨p, hpm, hpneg⟩ | h6 | h7
      · have h3 : freq.min?.getD 0 < 0 := lt_of_le_of_lt (hfle f hfm) hfneg
        rw [if_pos h3]
        exact ⟨.invalidFreqNeg, rfl, rfl⟩
      · by_cases h3 : freq.min?.getD 0 < 0
        · rw [if_pos h3]
          exact ⟨.invalidFreqNeg, rfl, rfl⟩
        · have h5 : psd.min?.getD 0 < 0 := lt_of_le_of_lt (hple p hpm) hpneg
          rw [if_neg h3, if_pos h5]
          exact ⟨.invalidPsdNeg, rfl, rfl⟩
      · by_cases h3 : freq.min?.getD 0 < 0
        · rw [if_pos h3]
          exact ⟨.invalidFreqNeg, rfl, rfl⟩
        · by_cases h5 : psd.min?.getD 0 < 0
          · rw [if_neg h3, if_pos h5]
            exact ⟨.invalidPsdNeg, rfl, rfl⟩
          · rw [if_neg h3, if_neg h5, if_pos h6]
            exact ⟨.invalidFreqLow, rfl, rfl⟩
      · by_cases h3 : freq.min?.getD 0 < 0
        · rw [if_pos h3]
          exact ⟨.invalidFreqNeg, rfl, rfl⟩
        · by_cases h5 : psd.min?.getD 0 < 0
          · rw [if_neg h3, if_pos h5]
            exact ⟨.invalidPsdNeg, rfl, rfl⟩
          · by_cases h6 : rate / (fftlen : ℚ) < freq.headD 0
            · rw [if_neg h3, if_neg h5, if_pos h6]
              exact ⟨.invalidFreqLow, rfl, rfl⟩
            · rw [if_neg h3, if_neg h5, if_neg h6, if_pos h7]
              exact ⟨.invalidNyquist, rfl, rfl⟩
  · intro hnv hpos
    rw [Violation] at hnv
    push_neg at hnv
    obtain ⟨hnv1, hnv2, hnv3, hnv4⟩ := hnv
    have h3 : ¬(freq.min?.getD 0 < 0) := not_lt.mpr (hnv1 _ hfmem)
    have h5 : ¬(psd.min?.getD 0 < 0) := not_lt.mpr (hnv2 _ hpmem)
    have h6 : ¬(rate / (fftlen : ℚ) < freq.headD 0) := not_lt.mpr hnv3
    have h7 : ¬(1 / 100 < |(freq.getLastD 0 - rate / 2) / (rate / 2)|) := not_lt.mpr hnv4
    have h8 : ¬(psd.filter (fun p => 0 < p) = []) := by
      obtain ⟨p, hpm, hppos⟩ := hpos
      intro hempty
      have hmemf : p ∈ psd.filter (fun p => 0 < p) :=
        List.mem_filter.mpr ⟨hpm, by simpa using hppos⟩
      rw [hempty] at hmemf
      exact absurd hmemf (List.not_mem_nil p)
    rw [if_neg h3, if_neg h5, if_neg h6, if_neg h7, if_neg h8]
    exact ⟨_, rfl⟩

/-- C4 counterexample: the all-zero PSD `[0, 0]` (with valid frequencies)
satisfies all four preconditions, yet the interpolation fails — with the
empty-selection error from `amin(psd[psd > 0])`, not `InvalidInput` — so
"for inputs satisfying all four preconditions it does not raise" is
false. -/
theorem c4_counterexample :
    ¬ Violation [0, 50] [0, 0] 100 4 ∧
      psdInterpE [0, 50] [0, 0] 100 4 = .error .aminEmptyPosPsd := by
  constructor
  · norm_num [Violation, List.headD, List.getLastD]
  · rw [psdInterpE]
    rw [if_neg (by rw [rfftfreq_length]; exact fun h => h rfl)]
    rw [if_neg (by simp : ¬([(0 : ℚ), 50] = [])), if_neg (by simp : ¬([(0 : ℚ), 0] = []))]
    norm_num [List.min?, List.foldl, min_def, List.headD, List.getLastD, List.filter]

/-- Witness for `c4_invalid_iff`: a flat positive PSD passes without any
error. -/
theorem c4_witness :
    ([(0 : ℚ), 50] ≠ []) ∧ ([(1 : ℚ), 1] ≠ []) ∧
      ∃ s, psdInterpE [0, 50] [1, 1] 100 4 = .ok s :=
  ⟨by simp, by simp,
    (c4_invalid_iff [0, 50] [1, 1] 100 4 (by simp) (by simp)).2
      (by norm_num [Violation, List.headD, List.getLastD])
      ⟨1, by simp, by norm_num⟩⟩

/-- C10: the pure-python path is not total over inputs satisfying the
§4.2 preconditions: if every PSD value is exactly zero, the selection
`psd[psd > 0]` is empty, `psd_shift = 0.01 * amin(psd[psd > 0])` is the
minimum of an empty selection, and the computation fails (with numpy's
empty-reduction error, not `InvalidInput`). -/
theorem c10_zero_psd_fails (freq psd : List ℚ) (rate : ℚ) (fftlen : ℕ)
    (hf : freq ≠ []) (hp : psd ≠ [])
    (hnv : ¬ Violation freq psd rate fftlen)
    (hz : ∀ p ∈ psd, p = 0) :
    psdInterpE freq psd rate fftlen = .error .aminEmptyPosPsd := by
  have h0 : ¬((rfftfreq fftlen rate).length ≠ npsdOf fftlen) := by
    rw [rfftfreq_length]
    exact fun h => h rfl
  obtain ⟨hfmem, hfle⟩ := qmin?_of_ne_nil hf
  obtain ⟨hpmem, hple⟩ := qmin?_of_ne_nil hp
  rw [Violation] at hnv
  push_neg at hnv
  obtain ⟨hnv1, hnv2, hnv3, hnv4⟩ := hnv
  have h3 : ¬(freq.min?.getD 0 < 0) := not_lt.mpr (hnv1 _ hfmem)
  have h5 : ¬(psd.min?.getD 0 < 0) := not_lt.mpr (hnv2 _ hpmem)
  have h6 : ¬(rate / (fftlen : ℚ) < freq.headD 0) := not_lt.mpr hnv3
  have h7 : ¬(1 / 100 < |(freq.getLastD 0 - rate / 2) / (rate / 2)|) := not_lt.mpr hnv4
  have h8 : psd.filter (fun p => 0 < p) = [] := by
    rw [List.filter_eq_nil_iff]
    intro p hpm
    simp [hz p hpm]
  rw [psdInterpE, if_neg h0, if_neg hf, if_neg hp, if_neg h3, if_neg h5, if_neg h6,
    if_neg h7, if_pos h8]

/-- Witness for `c10_zero_psd_fails` at the concrete all-zero PSD. -/
theorem c10_witness : psdInterpE [0, 50] [0, 0] 100 4 = .error .aminEmptyPosPsd :=
  c10_zero_psd_fails [0, 50] [0, 0] 100 4 (by simp) (by simp)
    (by norm_num [Violation, List.headD, List.getLastD])
    (by
      intro p hmem
      rcases (by simpa using hmem : p = 0 ∨ p = 0) with h | h <;> exact h)

theorem get?_set_zero {α : Type} (l : List α) (a : α) (h : l ≠ []) :
    (l.set 0 a).get? 0 = some a := by
  cases l with
  | nil => exact absurd rfl h
  | cons x xs => rfl

theorem interpCore_dc (freq psd : List ℚ) (rate : ℚ) (fftlen : ℕ) (s : ℚ) :
    (interpCore freq psd rate fftlen s).get? 0 = some (0 : ℝ) := by
  simp only [interpCore]
  apply get?_set_zero
  intro hnil
  have hlen := congrArg List.length hnil
  simp only [List.length_map, rfftfreq_length, npsdOf, List.length_nil] at hlen
  omega

/-- C7: whenever the interpolation succeeds, the interpolated PSD grid
returned by the synthesizer has its DC bin forced to exactly zero,
regardless of the input PSD values. -/
theorem c7_dc_bin_zero (G : ℕ → ℕ → ℕ → ℕ → ℝ) (req : Request)
    (out : List ℝ × List ℚ × List ℝ)
    (h : sim_noise_timestream G req = .ok out) :
    out.2.2.get? 0 = some (0 : ℝ) := by
  cases hpe : psdInterpE req.freq req.psd req.rate req.fftlen with
  | error e =>
    rw [sim_noise_timestream, hpe] at h
    exact Except.noConfusion h
  | ok s =>
    rw [sim_noise_timestream_ok G req s hpe] at h
    cases h
    exact interpCore_dc req.freq req.psd req.rate req.fftlen s

/-- Modelled from the spec: `rate_from_times` (external `toast.utils`),
deriving the sample rate from the shared timestamp array as the inverse
mean spacing; only the rate component of its result tuple is used. -/
def rate_from_times (times : List ℚ) : ℚ :=
  ((times.length - 1 : ℕ) : ℚ) / (times.getLastD 0 - times.headD 0)

/-- The noise-model object consumed read-only by `SimNoise._exec`: the
component keys and, per key, the frequency/PSD tables, the PSD index and
the per-detector mixing weight. -/
structure NoiseModel where
  keys : List String
  freq : String → List ℚ
  psd : String → List ℚ
  index : String → ℕ
  weight : String → String → ℚ

/-- The slice of an observation that `SimNoise._exec` reads and writes:
the selected local detectors, identifiers, optional global offset,
optional noise model, process-grid row size, the (lazily created) output
buffers, timestamps and the local sample range. -/
structure Obs where
  localDets : List String
  UID : ℕ
  telescopeId : ℕ
  globalOffset : Option ℕ
  noiseModel : Option NoiseModel
  commRowSize : ℕ
  outData : Option (String → List ℝ)
  times : List ℚ
  localIndexOffset : ℕ
  nLocalSamples : ℕ

/-- The synthesis request built for one PSD key (lines 294-306). -/
def mkKeyRequest (realization component : ℕ) (ob : Obs) (nse : NoiseModel)
    (rate : ℚ) (key : String) : Request :=
  { realization := realization
    telescope := ob.telescopeId
    component := component
    obsindx := ob.UID
    detindx := nse.index key
    rate := rate
    firstsamp := ob.localIndexOffset + ob.globalOffset.getD 0
    samples := ob.nLocalSamples
    oversample := 2
    freq := nse.freq key
    psd := nse.psd key }

/-- `weight = 0.0; for det in dets: weight += np.abs(nse.weight(det, key))`
(lines 287-289). -/
def absWeightSum (nse : NoiseModel) (dets : List String) (key : String) : ℚ :=
  (dets.map (fun det => |nse.weight det key|)).sum

/-- The accumulation loop (lines 309-313): for each detector in order,
skip it if its weight for this key is zero, otherwise add
`weight * nsedata` into its output buffer. -/
noncomputable def accumulate (nse : NoiseModel) (key : String) (nsedata : List ℝ) :
    List String → (String → List ℝ) → (String → List ℝ)
  | [], out => out
  | det :: rest, out =>
    accumulate nse key nsedata rest
      (if nse.weight det key = 0 then out
      else Function.update out det
        (List.zipWith (fun a b => a + b) (out det)
          (nsedata.map (fun x => ((nse.weight det key : ℚ) : ℝ) * x))))

/-- The body of the per-key loop of `SimNoise._exec` (lines 285-313):
skip the key if the total absolute weight is zero, otherwise synthesize
once and accumulate into each nonzero-weight detector.  The second
component records the synthesis requests performed for this key. -/
noncomputable def execKey (G : ℕ → ℕ → ℕ → ℕ → ℝ) (realization component : ℕ)
    (ob : Obs) (nse : NoiseModel) (rate : ℚ) (dets : List String) (key : String)
    (out : String → List ℝ) : Except NoiseErr ((String → List ℝ) × List Request) :=
  if absWeightSum nse dets key = 0 then .ok (out, [])
  else
    match synthesize G (mkKeyRequest realization component ob nse rate key) with
    | .error e => .error e
    | .ok nsedata =>
      .ok (accumulate nse key nsedata dets out,
        [mkKeyRequest realization component ob nse rate key])

/-- The loop over the noise model's keys, threading the output buffers
and concatenating the performed requests. -/
noncomputable def execKeys (G : ℕ → ℕ → ℕ → ℕ → ℝ) (realization component : ℕ)
    (ob : Obs) (nse : NoiseModel) (rate : ℚ) (dets : List String) :
    List String → (String → List ℝ) → Except NoiseErr ((String → List ℝ) × List Request)
  | [], out => .ok (out, [])
  | key :: rest, out =>
    match execKey G realization component ob nse rate dets key out with
    | .error e => .error e
    | .ok (out2, reqs) =>
      match execKeys G realization component ob nse rate dets rest out2 with
      | .error e => .error e
      | .ok (out3, reqs2) => .ok (out3, reqs ++ reqs2)

/-- One observation step of `SimNoise._exec` (lines 238-313): skip when
no local detectors are selected, fail with `MissingKey` when the noise
model is absent, fail with `NotImplemented` when the sample range is
split across processes, otherwise lazily create the output buffers and
run the per-key loop. -/
noncomputable def execObs (G : ℕ → ℕ → ℕ → ℕ → ℝ) (realization component : ℕ)
    (ob : Obs) : Except NoiseErr Obs :=
  if ob.localDets = [] then .ok ob
  else
    match ob.noiseModel with
    | none => .error .missingKey
    | some nse =>
      if ob.commRowSize ≠ 1 then .error .notImplemented
      else
        match execKeys G realization component ob nse (rate_from_times ob.times)
          ob.localDets nse.keys
          (ob.outData.getD (fun _ => List.replicate ob.nLocalSamples 0)) with
        | .error e => .error e
        | .ok (out2, _) => .ok { ob with outData := some out2 }

theorem accumulate_not_mem (nse : NoiseModel) (key : String) (ts : List ℝ)
    (dets : List String) (out : String → List ℝ) (det : String) (h : det ∉ dets) :
    accumulate nse key ts dets out det = out det := by
  induction dets generalizing out with
  | nil => rfl
  | cons d rest ih =>
    rw [accumulate]
    have hrest : det ∉ rest := fun hm => h (List.mem_cons_of_mem d hm)
    have hne : det ≠ d := fun heq => h (heq ▸ List.mem_cons_self d rest)
    rw [ih _ hrest]
    by_cases hw : nse.weight d key = 0
    · rw [if_pos hw]
    · rw [if_neg hw, Function.update_noteq hne]

theorem accumulate_mem (nse : NoiseModel) (key : String) (ts : List ℝ)
    (dets : List String) (out : String → List ℝ) (det : String)
    (hnd : dets.Nodup) (h : det ∈ dets) :
    accumulate nse key ts dets out det =
      if nse.weight det key = 0 then out det
      else List.zipWith (fun a b => a + b) (out det)
        (ts.map (fun x => ((nse.weight det key : ℚ) : ℝ) * x)) := by
  induction dets generalizing out with
  | nil => exact absurd h (List.not_mem_nil det)
  | cons d rest ih =>
    rw [accumulate]
    rcases List.mem_cons.mp h with heq | hmem
    · subst heq
      have hdrest : det ∉ rest := (List.nodup_cons.mp hnd).1
      rw [accumulate_not_mem nse key ts rest _ det hdrest]
      by_cases hw : nse.weight det key = 0
      · rw [if_pos hw, if_pos hw]
      · rw [if_neg hw, if_neg hw, Function.update_same]
    · have hnd2 := (List.nodup_cons.mp hnd).2
      have hne : det ≠ d := by
        intro heq
        subst heq
        exact (List.nodup_cons.mp hnd).1 hmem
      rw [ih _ hnd2 hmem]
      by_cases hw : nse.weight d key = 0
      · rw [if_pos hw]
      · rw [if_neg hw, Function.update_noteq hne]

/-- C8: for each PSD key, the operator performs zero synthesis calls and
leaves every buffer untouched when the total absolute mixing weight over
the active detectors is exactly zero; otherwise it synthesizes exactly
once and adds `weight * timestream` into each nonzero-weight detector's
buffer — an additive accumulation that leaves zero-weight and inactive
detectors unchanged. -/
theorem c8_per_key (G : ℕ → ℕ → ℕ → ℕ → ℝ) (realization component : ℕ) (ob : Obs)
    (nse : NoiseModel) (rate : ℚ) (dets : List String) (key : String)
    (out : String → List ℝ) (hnd : dets.Nodup) :
    (absWeightSum nse dets key = 0 →
      execKey G realization component ob nse rate dets key out = .ok (out, [])) ∧
    (∀ ts, absWeightSum nse dets key ≠ 0 →
      synthesize G (mkKeyRequest realization component ob nse rate key) = .ok ts →
      execKey G realization component ob nse rate dets key out =
        .ok (accumulate nse key ts dets out,
          [mkKeyRequest realization component ob nse rate key]) ∧
      (∀ det ∈ dets, nse.weight det key = 0 →
        accumulate nse key ts dets out det = out det) ∧
      (∀ det ∈ dets, nse.weight det key ≠ 0 →
        accumulate nse key ts dets out det =
          List.zipWith (fun a b => a + b) (out det)
            (ts.map (fun x => ((nse.weight det key : ℚ) : ℝ) * x))) ∧
      (∀ det, det ∉ dets → accumulate nse key ts dets out det = out det)) := by
  constructor
  · intro h0
    rw [execKey, if_pos h0]
  · intro ts hW hok
    refine ⟨?_, ?_, ?_, ?_⟩
    · rw [execKey, if_neg hW, hok]
    · intro det hmem hw
      rw [accumulate_mem nse key ts dets out det hnd hmem, if_pos hw]
    · intro det hmem hw
      rw [accumulate_mem nse key ts dets out det hnd hmem, if_neg hw]
    · intro det h
      exact accumulate_not_mem nse key ts dets out det h

/-- C9: per observation, the operator is a no-op (same observation, no
output created) when there are no selected local detectors; fails with
`MissingKey` when the configured noise model is absent; and fails with
`NotImplemented` when the sample range is split over several process
rows — in the two failure cases nothing has been written. -/
theorem c9_exec_obs_guards (G : ℕ → ℕ → ℕ → ℕ → ℝ) (realization component : ℕ)
    (ob : Obs) :
    (ob.localDets = [] → execObs G realization component ob = .ok ob) ∧
    (ob.localDets ≠ [] → ob.noiseModel = none →
      execObs G realization component ob = .error .missingKey) ∧
    (∀ nse, ob.localDets ≠ [] → ob.noiseModel = some nse → ob.commRowSize ≠ 1 →
      execObs G realization component ob = .error .notImplemented) := by
  refine ⟨?_, ?_, ?_⟩
  · intro h
    rw [execObs, if_pos h]
  · intro h hm
    rw [execObs, if_neg h, hm]
  · intro nse h hm hc
    rw [execObs, if_neg h, hm]
    simp only [if_pos hc]

theorem mkFdata_length (r : List ℝ) (npsd : ℕ) : (mkFdata r npsd).length = npsd := by
  rw [mkFdata, List.length_map, List.length_range]

theorem interpCore_length (freq psd : List ℚ) (rate : ℚ) (fftlen : ℕ) (s : ℚ) :
    (interpCore freq psd rate fftlen s).length = npsdOf fftlen := by
  simp only [interpCore, List.length_set, List.length_map, rfftfreq_length]

theorem scaleOf_length (req : Request) (s : ℚ) : (scaleOf req s).length = req.npsd := by
  rw [scaleOf, List.length_map, interpCore_length]
  rfl

theorem fdataScaledOf_length (G : ℕ → ℕ → ℕ → ℕ → ℝ) (req : Request) (s : ℚ) :
    (fdataScaledOf G req s).length = req.npsd := by
  rw [fdataScaledOf, List.length_zipWith, mkFdata_length, scaleOf_length, min_self]

theorem irfft_length (fd : List ℂ) : (irfft fd).length = 2 * (fd.length - 1) := by
  simp only [irfft, List.length_map, List.length_range]

theorem tdataOf_length (G : ℕ → ℕ → ℕ → ℕ → ℝ) (req : Request) (s : ℚ) :
    (tdataOf G req s).length = req.fftlen := by
  rw [tdataOf, irfft_length, fdataScaledOf_length]
  have heven := fftlenOf_even req.oversample req.samples
  simp only [Request.npsd, Request.fftlen, npsdOf] at *
  omega

theorem samples_le_fftlen (req : Request) (ho : 1 ≤ req.oversample) :
    req.samples ≤ req.fftlen := by
  have h := fftlenOf_gt req.oversample req.samples
  have h2 : req.samples ≤ req.oversample * req.samples :=
    Nat.le_mul_of_pos_left _ (by omega)
  simp only [Request.fftlen]
  omega

theorem windowOf_length (G : ℕ → ℕ → ℕ → ℕ → ℝ) (req : Request) (s : ℚ)
    (ho : 1 ≤ req.oversample) : (windowOf G req s).length = req.samples := by
  rw [windowOf, List.length_take, List.length_drop, tdataOf_length]
  have h1 := samples_le_fftlen req ho
  simp only [offsetOf]
  omega

theorem sum_map_sub (l : List ℝ) (c : ℝ) :
    (l.map (fun x => x - c)).sum = l.sum - l.length * c := by
  induction l with
  | nil => simp
  | cons x xs ih =>
    simp only [List.map_cons, List.sum_cons, List.length_cons, ih]
    push_cast
    ring

/-- C6: for a valid request (positive oversample factor and sample
count), a successful synthesis returns exactly the central window
`tdata[offset : offset + samples]` with its own mean subtracted; the
result has length `samples` and sums (hence averages) to exactly zero in
exact arithmetic. -/
theorem c6_window_mean_zero (G : ℕ → ℕ → ℕ → ℕ → ℝ) (req : Request) (out : List ℝ)
    (ho : 1 ≤ req.oversample) (hs : 1 ≤ req.samples)
    (h : synthesize G req = .ok out) :
    out.length = req.samples ∧
    (∃ s, psdInterpE req.freq req.psd req.rate req.fftlen = .ok s ∧
      out = (windowOf G req s).map
        (fun x => x - (windowOf G req s).sum / ((windowOf G req s).length : ℝ))) ∧
    out.sum = 0 := by
  cases hpe : psdInterpE req.freq req.psd req.rate req.fftlen with
  | error e =>
    rw [synthesize, sim_noise_timestream, hpe] at h
    exact Except.noConfusion h
  | ok s =>
    rw [synthesize_ok G req s hpe] at h
    cases h
    have hlen : (windowOf G req s).length = req.samples := windowOf_length G req s ho
    refine ⟨?_, ⟨s, rfl, rfl⟩, ?_⟩
    · simp only [synthCore]
      rw [List.length_map, hlen]
    · simp only [synthCore]
      rw [sum_map_sub, hlen]
      have hne : ((req.samples : ℕ) : ℝ) ≠ 0 := by
        have hpos : 0 < req.samples := hs
        exact_mod_cast Nat.pos_iff_ne_zero.mp hpos
      field_simp

theorem psdInterpE_reqC2 :
    psdInterpE reqC2.freq reqC2.psd reqC2.rate reqC2.fftlen = .ok (1 / 100) := by
  have h4 : reqC2.fftlen = 4 := by decide
  show psdInterpE [0, 50] [1, 1] 100 reqC2.fftlen = .ok (1 / 100)
  rw [h4, psdInterpE]
  rw [if_neg (by rw [rfftfreq_length]; exact fun h => h rfl)]
  rw [if_neg (by simp : ¬([(0 : ℚ), 50] = [])), if_neg (by simp : ¬([(1 : ℚ), 1] = []))]
  norm_num [List.min?, List.foldl, min_def, List.headD, List.getLastD, List.filter]
  intro hcon
  exact absurd hcon (by simp)

/-- Witness for `c6_window_mean_zero` on a concrete request. -/
theorem c6_witness :
    1 ≤ reqC2.oversample ∧ 1 ≤ reqC2.samples ∧
      ∃ out, synthesize gZero reqC2 = .ok out ∧
        out.length = reqC2.samples ∧ out.sum = 0 := by
  have hok := synthesize_ok gZero reqC2 (1 / 100) psdInterpE_reqC2
  have h := c6_window_mean_zero gZero reqC2 (synthCore gZero reqC2 (1 / 100))
    (by decide) (by decide) hok
  exact ⟨by decide, by decide, synthCore gZero reqC2 (1 / 100), hok, h.1, h.2.2⟩

/-- Witness for `c7_dc_bin_zero` on a concrete request. -/
theorem c7_witness :
    ∃ out, sim_noise_timestream gZero reqC2 = .ok out ∧
      out.2.2.get? 0 = some (0 : ℝ) := by
  have hok := sim_noise_timestream_ok gZero reqC2 (1 / 100) psdInterpE_reqC2
  exact ⟨_, hok, c7_dc_bin_zero gZero reqC2 _ hok⟩

/-- A two-component-free noise model with one key coupled only to
detector `a`. -/
def nseW : NoiseModel :=
  { keys := ["k"], freq := fun _ => [0, 50], psd := fun _ => [1, 1],
    index := fun _ => 0, weight := fun det _ => if det = "a" then 2 else 0 }

/-- A single-process observation with two selected detectors. -/
def obW : Obs :=
  { localDets := ["a", "b"], UID := 0, telescopeId := 0, globalOffset := none,
    noiseModel := some nseW, commRowSize := 1, outData := none,
    times := [0, 1], localIndexOffset := 0, nLocalSamples := 2 }

/-- All-zero initial output buffers for `obW`. -/
def outZeroW : String → List ℝ := fun _ => [0, 0]

theorem psdInterpE_reqW :
    psdInterpE (mkKeyRequest 0 0 obW nseW 100 "k").freq
      (mkKeyRequest 0 0 obW nseW 100 "k").psd
      (mkKeyRequest 0 0 obW nseW 100 "k").rate
      (mkKeyRequest 0 0 obW nseW 100 "k").fftlen = .ok (1 / 100) := by
  have h8 : (mkKeyRequest 0 0 obW nseW 100 "k").fftlen = 8 := by decide
  show psdInterpE [0, 50] [1, 1] 100 (mkKeyRequest 0 0 obW nseW 100 "k").fftlen =
    .ok (1 / 100)
  rw [h8, psdInterpE]
  rw [if_neg (by rw [rfftfreq_length]; exact fun h => h rfl)]
  rw [if_neg (by simp : ¬([(0 : ℚ), 50] = [])), if_neg (by simp : ¬([(1 : ℚ), 1] = []))]
  norm_num [List.min?, List.foldl, min_def, List.headD, List.getLastD, List.filter]
  intro hcon
  exact absurd hcon (by simp)

/-- Witness for `c8_per_key` on a concrete observation: detector `a` has
weight 2, detector `b` weight 0, so the key is synthesized once. -/
theorem c8_witness :
    (["a", "b"] : List String).Nodup ∧ absWeightSum nseW ["a", "b"] "k" ≠ 0 ∧
      execKey gZero 0 0 obW nseW 100 ["a", "b"] "k" outZeroW =
        .ok (accumulate nseW "k"
            (synthCore gZero (mkKeyRequest 0 0 obW nseW 100 "k") (1 / 100))
            ["a", "b"] outZeroW,
          [mkKeyRequest 0 0 obW nseW 100 "k"]) := by
  have hW : absWeightSum nseW ["a", "b"] "k" ≠ 0 := by
    norm_num [absWeightSum, nseW]
    rw [if_neg (show ¬(("b" : String) = "a") by decide)]
    norm_num
  have hok := synthesize_ok gZero (mkKeyRequest 0 0 obW nseW 100 "k") (1 / 100)
    psdInterpE_reqW
  refine ⟨by decide, hW, ?_⟩
  exact ((c8_per_key gZero 0 0 obW nseW 100 ["a", "b"] "k" outZeroW (by decide)).2
    _ hW hok).1

/-- Observation with no selected detectors. -/
def obEmptyW : Obs :=
  { localDets := [], UID := 0, telescopeId := 0, globalOffset := none,
    noiseModel := none, commRowSize := 1, outData := none,
    times := [0, 1], localIndexOffset := 0, nLocalSamples := 1 }

/-- Observation with a detector but no noise model. -/
def obNoModelW : Obs :=
  { obEmptyW with localDets := ["a"] }

/-- Observation whose sample range is split over two process rows. -/
def obMultiRankW : Obs :=
  { obEmptyW with localDets := ["a"], noiseModel := some nseW, commRowSize := 2 }

/-- Witness for `c9_exec_obs_guards` on three concrete observations. -/
theorem c9_witness :
    execObs gZero 0 0 obEmptyW = .ok obEmptyW ∧
      execObs gZero 0 0 obNoModelW = .error .missingKey ∧
      execObs gZero 0 0 obMultiRankW = .error .notImplemented :=
  ⟨(c9_exec_obs_guards gZero 0 0 obEmptyW).1 rfl,
    (c9_exec_obs_guards gZero 0 0 obNoModelW).2.1 (by decide) rfl,
    (c9_exec_obs_guards gZero 0 0 obMultiRankW).2.2 nseW (by decide) rfl (by decide)⟩
